import Mathlib

/-!
Shallow embedding of the naming-and-reconciliation engine of the
`prefixdevname` repository (src/util.rs, src/config.rs, src/main.rs),
together with proofs about the embedded definitions.

Strings are modelled as `List Char` (Rust `String` holds unicode text; all
string operations used by the program are per-character or per-byte, and the
byte length of a string is the sum of the UTF-8 sizes of its characters).
Fallible Rust functions returning `Result` are modelled as `Option`-valued
functions (the program never inspects the error payload, only whether an
error occurred).  Machine integers (`u8`, `u64`) are modelled as `Nat` with
the explicit bound checks that Rust's checked parsing performs.
-/

/-! ## Character-level helpers -/

/-- ASCII test for one character (Rust `u8`-level test: code point < 128). -/
def isAsciiChar (c : Char) : Bool := c.toNat ≤ 127

/-- The separator set used by `hwaddr_valid`’s split: `c == ':' || c == '-'`. -/
def isSep (c : Char) : Bool := c = ':' || c = '-'

/-- ASCII decimal digit, as recognised by Rust's radix-10 integer parser. -/
def isDigitChar (c : Char) : Bool := 48 ≤ c.toNat && c.toNat ≤ 57

/-- ASCII hex digit, as recognised by Rust's radix-16 integer parser
(`0-9`, `a-f`, `A-F`). -/
def isHexDigitChar (c : Char) : Bool :=
  isDigitChar c || (97 ≤ c.toNat && c.toNat ≤ 102) || (65 ≤ c.toNat && c.toNat ≤ 70)

/-- ASCII alphabetic character, the POSIX `[[:alpha:]]` class used by the
`regex` crate (ASCII-only). -/
def isAlphaChar (c : Char) : Bool :=
  (65 ≤ c.toNat && c.toNat ≤ 90) || (97 ≤ c.toNat && c.toNat ≤ 122)

/-- Numeric value of a hex digit (meaningful only when `isHexDigitChar c`). -/
def hexVal (c : Char) : Nat :=
  if 48 ≤ c.toNat ∧ c.toNat ≤ 57 then c.toNat - 48
  else if 97 ≤ c.toNat ∧ c.toNat ≤ 102 then c.toNat - 87
  else c.toNat - 55

/-- Numeric value of a decimal digit. -/
def decVal (c : Char) : Nat := c.toNat - 48

/-- The character substitution of `str::replace('-', ":")`. -/
def sepToColon (c : Char) : Char := if c = '-' then ':' else c

/-- The character substitution of `str::make_ascii_uppercase` (`a`-`z` maps
to `A`-`Z`, everything else is unchanged). -/
def asciiUpper (c : Char) : Char :=
  if 97 ≤ c.toNat ∧ c.toNat ≤ 122 then Char.ofNat (c.toNat - 32) else c

/-- UTF-8 byte length of a string, Rust's `str::as_bytes().len()`. -/
def byteLen (l : List Char) : Nat := (l.map Char.utf8Size).sum

/-! ## Rust integer parsing

`u8::from_str_radix(s, 16)` and `str::parse::<u64>()` accept an optional
leading `+` sign followed by a non-empty run of digits of the radix, and
fail on overflow of the target type.  (A leading `-` is rejected for
unsigned target types.)  The checked arithmetic in the fold fails exactly
when the final unbounded value exceeds the type's maximum, because the
accumulator is monotonically non-decreasing along the fold. -/

/-- Value of a digit run in the given radix, via the usual left fold. -/
def digitsVal (radix : Nat) (vals : Char → Nat) (ds : List Char) : Nat :=
  ds.foldl (fun a c => radix * a + vals c) 0

/-- The digit phase shared by Rust's unsigned parsers: the (sign-stripped)
run must be non-empty, consist of digits of the radix, and its value must
fit the target type. -/
def parseDigitsCore (radix : Nat) (vals : Char → Nat) (isD : Char → Bool)
    (maxVal : Nat) (ds : List Char) : Option Nat :=
  if (!ds.isEmpty) && ds.all isD then
    let v := digitsVal radix vals ds
    if v ≤ maxVal then some v else none
  else none

/-- Models `u8::from_str_radix(s, 16)`: optional `+`, non-empty hex digits, ≤ 255. -/
def parseHexU8 (s : List Char) : Option Nat :=
  match s with
  | [] => none
  | c :: rest =>
    parseDigitsCore 16 hexVal isHexDigitChar 255 (if c = '+' then rest else c :: rest)

/-- Models `str::parse::<u64>()`: optional `+`, non-empty decimal digits, ≤ 2^64 - 1. -/
def parseU64 (s : List Char) : Option Nat :=
  match s with
  | [] => none
  | c :: rest =>
    parseDigitsCore 10 decVal isDigitChar (2 ^ 64 - 1) (if c = '+' then rest else c :: rest)

/-! ## util.rs: hardware address validation and normalization -/

/-- Rust `str::split(|c| c == ':' || c == '-')`: splits at every separator
character, keeping empty pieces (an empty string yields one empty piece). -/
def splitSep : List Char → List (List Char)
  | [] => [[]]
  | c :: rest =>
    let gs := splitSep rest
    if isSep c then [] :: gs
    else (c :: gs.headD []) :: gs.tail

/-- Models `hwaddr_valid` (src/util.rs:31): the address must be ASCII, its length
must be exactly 17, and every separator-delimited group must parse as a hex
`u8`. -/
def hwaddr_valid (addr : List Char) : Bool :=
  addr.all isAsciiChar && addr.length == 17 && (splitSep addr).all fun g => (parseHexU8 g).isSome

/-- Models `addr.replace('-', ":")` guarded by `addr.find('-').is_some()`, exactly
as in `hwaddr_normalize` (the guard is a no-op, kept for fidelity). -/
def replaceDashes (addr : List Char) : List Char :=
  if addr.contains '-' then addr.map sepToColon else addr

/-- Models `hwaddr_normalize` (src/util.rs:59): fails unless `hwaddr_valid`;
otherwise replaces `-` with `:` and upper-cases ASCII letters. -/
def hwaddr_normalize (addr : List Char) : Option (List Char) :=
  if hwaddr_valid addr then some ((replaceDashes addr).map asciiUpper) else none

/-! ## util.rs: remaining pure helpers -/

/-- Does the pattern `<pfx>\d+` match at the very start of `s`?  (`pfx` is a
literal string here; every prefix the program passes in is alphabetic, so
the interpolated regex has no metacharacters.) -/
def matchesHere (pfx s : List Char) : Bool :=
  pfx.isPrefixOf s &&
    match s.drop pfx.length with
    | d :: _ => isDigitChar d
    | [] => false

/-- Unanchored search for the pattern `<pfx>\d+` anywhere in `s`
(`Regex::is_match` tries every starting position). -/
def hasPfxDigits (pfx : List Char) : List Char → Bool
  | [] => false
  | c :: rest => matchesHere pfx (c :: rest) || hasPfxDigits pfx rest

/-- Models `rename_needed` (src/util.rs:15): true iff the regex `<pfx>\d+` does
NOT match anywhere in the interface name. -/
def rename_needed (ifname pfx : List Char) : Bool :=
  !hasPfxDigits pfx ifname

/-- The forbidden-prefix list of `prefix_ok` (src/util.rs:110). -/
def forbiddenPrefixes : List (List Char) :=
  [("eth").data, ("eno").data, ("ens").data, ("enb").data, ("enc").data,
   ("enx").data, ("enP").data, ("enp").data, ("env").data, ("ena").data, ("em").data]

/-- Models `prefix_ok` (src/util.rs:110): not a forbidden prefix, and shorter than
16 bytes. -/
def prefix_ok (pfx : List Char) : Bool :=
  (!forbiddenPrefixes.contains pfx) && byteLen pfx < 16

/-! ## Rust `str::trim_start_matches`

Repeatedly strips the pattern from the front while it is a prefix; an empty
pattern strips nothing.  Implemented with explicit fuel so that it is
structurally recursive and kernel-computable; each strip removes at least
one character, so `s.length` is enough fuel. -/

def trimAux (p : List Char) : Nat → List Char → List Char
  | 0, s => s
  | n + 1, s =>
    if p.isPrefixOf s && !p.isEmpty then trimAux p n (s.drop p.length) else s

/-- Models `str::trim_start_matches(p)` on `s`. -/
def trimStartMatches (p s : List Char) : List Char := trimAux p s.length s

/-! ## The regex capture `([[:alpha:]]+)\d+`

`Regex::captures` returns the leftmost match; the pattern matches a maximal
alphabetic run immediately followed by a digit, and group 1 captures the
alphabetic run.  If a maximal alphabetic run is not followed by a digit, no
start position inside that run can match either, so the search resumes
after the run.  Fuel-based for structural recursion. -/

def extractAlphaRunAux : Nat → List Char → List Char
  | 0, _ => []
  | _ + 1, [] => []
  | n + 1, c :: rest =>
    if isAlphaChar c then
      match rest.dropWhile isAlphaChar with
      | d :: _ =>
        if isDigitChar d then c :: rest.takeWhile isAlphaChar
        else extractAlphaRunAux n (rest.dropWhile isAlphaChar)
      | [] => []
    else extractAlphaRunAux n rest

/-- Group 1 of the first match of `([[:alpha:]]+)\d+` in `name`, or `""`
when there is no match (the `None => ""` arm of the source). -/
def extractAlphaRun (name : List Char) : List Char :=
  extractAlphaRunAux name.length name

/-! ## config.rs: the Link Record (`PrefixedLink`) -/

/-- Models `PrefixedLink` (src/config.rs:21). -/
structure PrefixedLink where
  name : List Char
  index : Nat
  hwaddr : List Char
deriving DecidableEq, Repr

/-- Models `PrefixedLink::link_name_sane` (src/config.rs:80): non-empty and at
most 16 bytes. -/
def link_name_sane (name : List Char) : Bool :=
  (!name.isEmpty) && byteLen name ≤ 16

/-- Models `PrefixedLink::new_with_hwaddr` (src/config.rs:53): normalize the given
address, validate the name, extract the regex prefix, parse the suffix. -/
def PrefixedLink.new_with_hwaddr (link_name hwaddr : List Char) : Option PrefixedLink :=
  match hwaddr_normalize hwaddr with
  | none => none
  | some addr =>
    if link_name_sane link_name then
      (parseU64 (trimStartMatches (extractAlphaRun link_name) link_name)).map
        fun i => ⟨link_name, i, addr⟩
    else none

/-- Models `PrefixedLink::new` (src/config.rs:29): same name handling, but the
hardware address is read from the *event device* (`hwaddr_from_event_device`)
and normalized.  `eventRaw` models the raw `address` sysfs attribute of the
event device (`none` when the device-layer lookup fails). -/
def PrefixedLink.new (eventRaw : Option (List Char)) (link_name : List Char) :
    Option PrefixedLink :=
  if link_name_sane link_name then
    match parseU64 (trimStartMatches (extractAlphaRun link_name) link_name) with
    | none => none
    | some i =>
      match eventRaw with
      | none => none
      | some raw => (hwaddr_normalize raw).map fun addr => ⟨link_name, i, addr⟩
  else none

/-- Models `hwaddr_from_event_device` (src/util.rs:74): read the event device's
raw `address` attribute and normalize it. -/
def hwaddr_from_event_device (eventRaw : Option (List Char)) : Option (List Char) :=
  match eventRaw with
  | none => none
  | some raw => hwaddr_normalize raw

/-! ## config.rs: record file path and contents, with a small filesystem
model for the write (an association list of path ↦ contents plus a set of
existing directories) -/

/-- Models `NET_SETUP_LINK_CONF_DIR` (src/config.rs:18). -/
def netSetupLinkConfDir : List Char := ("/etc/systemd/network/").data

/-- Models `LINK_FILE_PREFIX` (src/config.rs:19). -/
def linkFilePfx : List Char := ("71-net-ifnames-prefix-").data

/-- Models `PrefixedLink::link_file_path` (src/config.rs:94). -/
def link_file_path (l : PrefixedLink) : List Char :=
  netSetupLinkConfDir ++ (linkFilePfx ++ l.name ++ (".link").data)

/-- The exact text written by `write_link_file` (src/config.rs:107). -/
def link_file_content (l : PrefixedLink) : List Char :=
  ("[Match]\nMACAddress=").data ++ l.hwaddr ++ ("\n\n[Link]\nName=").data ++
    l.name ++ ("\n").data

/-- Association-list insert with replacement (models both `HashMap::insert`
and `File::create`'s truncate-or-create). -/
def assocInsert {α : Type} (k : List Char) (v : α) :
    List (List Char × α) → List (List Char × α)
  | [] => [(k, v)]
  | (k2, v2) :: rest =>
    if k2 = k then (k, v) :: rest else (k2, v2) :: assocInsert k v rest

/-- Association-list lookup (models `HashMap::get`). -/
def assocLookup {α : Type} (k : List Char) : List (List Char × α) → Option α
  | [] => none
  | (k2, v2) :: rest => if k2 = k then some v2 else assocLookup k rest

/-- Filesystem model: existing directories and regular files. -/
structure FileSystem where
  dirs : List (List Char)
  files : List (List Char × List Char)

/-- Models `PrefixedLink::write_link_file` (src/config.rs:101): create the records
directory if absent (`fs::create_dir_all`), then create/truncate the file
at the canonical path and write the two-section document. -/
def write_link_file (fs : FileSystem) (l : PrefixedLink) : FileSystem :=
  { dirs := if fs.dirs.contains netSetupLinkConfDir then fs.dirs
            else netSetupLinkConfDir :: fs.dirs
    files := assocInsert (link_file_path l) (link_file_content l) fs.files }

/-! ## config.rs: roster merge (`Vec::sort` + `Vec::dedup`)

`Vec::sort` is a stable sort; `Ord for PrefixedLink` compares by `index`
only (src/config.rs:117).  A stable sort by a key is extensionally unique,
so it is modelled by stable insertion sort.  `Vec::dedup` removes
*consecutive* duplicates under full `PartialEq` equality
(name, index and hwaddr all equal). -/

/-- Stable insertion by `index`: on ties, the inserted (earlier) element
stays in front. -/
def insertByIndex (x : PrefixedLink) : List PrefixedLink → List PrefixedLink
  | [] => [x]
  | y :: ys => if x.index ≤ y.index then x :: y :: ys else y :: insertByIndex x ys

/-- Stable sort by `index` (models `Vec::sort` with the `Ord` above). -/
def sortByIndex : List PrefixedLink → List PrefixedLink
  | [] => []
  | x :: l => insertByIndex x (sortByIndex l)

/-- Models `Vec::dedup`: remove consecutive fully-equal duplicates. -/
def dedupConsec : List PrefixedLink → List PrefixedLink
  | [] => []
  | [a] => [a]
  | a :: b :: rest =>
    if a = b then dedupConsec (b :: rest) else a :: dedupConsec (b :: rest)

/-- Number of occurrences of `r` in a list of records. -/
def countOcc (r : PrefixedLink) : List PrefixedLink → Nat
  | [] => 0
  | x :: l => (if x = r then 1 else 0) + countOcc r l

/-- The merge performed at the end of `NetSetupLinkConfig::load`
(src/config.rs:150): the udev list concatenated with the on-disk list,
stably sorted by `index`, consecutive duplicates removed. -/
def mergeLinks (udevLinks fileLinks : List PrefixedLink) : List PrefixedLink :=
  dedupConsec (sortByIndex (udevLinks ++ fileLinks))

/-! ## config.rs: `NetSetupLinkConfig` -/

/-- Models `NetSetupLinkConfig` (src/config.rs:129).  The `HashMap` is modelled as
an association list with insert-replace semantics. -/
structure NetSetupLinkConfig where
  config : List (List Char × PrefixedLink)
  links : List PrefixedLink
  ifnamePfx : List Char
deriving DecidableEq, Repr

/-- Models `NetSetupLinkConfig::for_hwaddr` (src/config.rs:158). -/
def for_hwaddr (c : NetSetupLinkConfig) (mac : List Char) : Option PrefixedLink :=
  assocLookup mac c.config

/-- Models `NetSetupLinkConfig::next_link_name` (src/config.rs:165): `<pfx>0` for
an empty roster, otherwise `<pfx><n+1>` where `n` is parsed from the last
record's name after stripping the prefix.  (`links.last()` on a non-empty
vector never fails, so `is_empty`+`last` is modelled by `getLast?`.) -/
def next_link_name (c : NetSetupLinkConfig) : Option (List Char) :=
  match c.links.getLast? with
  | none => some (c.ifnamePfx ++ ("0").data)
  | some last =>
    (parseU64 (trimStartMatches c.ifnamePfx last.name)).map
      fun lastIndex => c.ifnamePfx ++ Nat.toDigits 10 (lastIndex + 1)

/-! ## config.rs: `enumerate_links_from_files` (src/config.rs:235)

The directory listing, filename filtering and INI parsing are filesystem
I/O; their combined outcome is a parameter: `entries` is the list of
`(MACAddress value, Name value)` pairs of the successfully parsed record
files, in directory order (`none` when listing or parsing failed).  For
each entry whose name starts with the active prefix the source inserts
`(raw MAC string, PrefixedLink::new(&name))` into the map — note:
`PrefixedLink::new`, which takes the hardware address from the *event
device* — and appends `PrefixedLink::new_with_hwaddr(&name, &mac)` to the
links vector. -/

def enumFilesAux (eventRaw : Option (List Char)) (pfx : List Char) :
    List (List Char × List Char) → List (List Char × PrefixedLink) →
    List PrefixedLink → Option (List (List Char × PrefixedLink) × List PrefixedLink)
  | [], m, ls => some (m, ls)
  | (mac, name) :: rest, m, ls =>
    if pfx.isPrefixOf name then
      match PrefixedLink.new eventRaw name with
      | none => none
      | some fromEvent =>
        match PrefixedLink.new_with_hwaddr name mac with
        | none => none
        | some fromFile =>
          enumFilesAux eventRaw pfx rest (assocInsert mac fromEvent m) (ls ++ [fromFile])
    else enumFilesAux eventRaw pfx rest m ls

/-! ## main.rs: the event-handler control flow (src/main.rs:22)

External I/O outcomes are inputs: the kernel-cmdline prefix lookup, the
`DEVPATH`/`INTERFACE` environment values, the semaphore creation, the udev
enumeration (`enumerate_links_from_udev`, whose device scan is external),
the record-file listing/parse, the event device's raw address attribute,
and the final file write.  Everything downstream of those outcomes is the
embedded code above. -/

structure MainEnv where
  /-- Outcome of `get_prefix_from_file("/proc/cmdline")`; `some []` models
  `Ok("")` (no prefix configured). -/
  pfxResult : Option (List Char)
  /-- Models `event_device_virtual()`. -/
  devpathVirtual : Bool
  /-- Models `event_device_name()` (the `INTERFACE` variable, `""` if unset). -/
  ifname : List Char
  /-- Did `Semaphore::new_with_name` succeed? -/
  semaOk : Bool
  /-- Outcome of `enumerate_links_from_udev` (external device scan). -/
  udevScan : Option (List PrefixedLink)
  /-- Outcome of listing/parsing the record files (see `enumFilesAux`). -/
  fileEntries : Option (List (List Char × List Char))
  /-- The event device's raw `address` sysfs attribute. -/
  eventRaw : Option (List Char)
  /-- Did `write_link_file`'s filesystem I/O succeed? -/
  writeOk : Bool

/-- Models `NetSetupLinkConfig::load` (src/config.rs:144): enumerate from udev,
then from files, then sort and dedup. -/
def NetSetupLinkConfig.load (env : MainEnv) (pfx : List Char) :
    Option NetSetupLinkConfig :=
  match env.udevScan with
  | none => none
  | some udevLinks =>
    match env.fileEntries with
    | none => none
    | some entries =>
      match enumFilesAux env.eventRaw pfx entries [] [] with
      | none => none
      | some (m, fileLinks) => some ⟨m, mergeLinks udevLinks fileLinks, pfx⟩

/-- A lock-discipline event: `sema.lock()` or `sema.unlock()` (the latter
both directly and via `exit_maybe_unlock(Some(..), ..)`). -/
inductive LockEvent where
  | lock : LockEvent
  | unlock : LockEvent
deriving DecidableEq, Repr

/-- Observable result of one invocation of `main`. -/
structure MainResult where
  events : List LockEvent
  stdout : List (List Char)
  wroteFile : Bool
  exitCode : Nat
deriving DecidableEq, Repr

/-- Models `main` (src/main.rs:22), step by step.  Each `exit_maybe_unlock(None, c)`
is a result with no lock events; each `exit_maybe_unlock(Some(&mut sema), c)`
after `sema.lock()` yields the events `[lock, unlock]`. -/
def runMain (env : MainEnv) : MainResult :=
  match env.pfxResult with
  | none => ⟨[], [], false, 1⟩
  | some pfx =>
    if pfx.isEmpty then ⟨[], [], false, 0⟩
    else if !prefix_ok pfx then ⟨[], [], false, 0⟩
    else if env.devpathVirtual then ⟨[], [], false, 0⟩
    else if !rename_needed env.ifname pfx then ⟨[], [env.ifname], false, 0⟩
    else if !env.semaOk then ⟨[], [], false, 1⟩
    else
      match NetSetupLinkConfig.load env pfx with
      | none => ⟨[.lock, .unlock], [], false, 1⟩
      | some config =>
        match hwaddr_from_event_device env.eventRaw with
        | none => ⟨[.lock, .unlock], [], false, 1⟩
        | some eventAddr =>
          if (for_hwaddr config eventAddr).isSome then ⟨[.lock, .unlock], [], false, 0⟩
          else
            match next_link_name config with
            | none => ⟨[.lock, .unlock], [], false, 1⟩
            | some nextName =>
              match PrefixedLink.new_with_hwaddr nextName eventAddr with
              | none => ⟨[.lock, .unlock], [], false, 1⟩
              | some _linkConfig =>
                if !env.writeOk then ⟨[.lock, .unlock], [], false, 1⟩
                else ⟨[.lock, .unlock], [nextName], true, 0⟩

/-! ## Character-level lemmas -/

theorem char_eq_iff_toNat {c d : Char} : c = d ↔ c.toNat = d.toNat := by
  constructor
  · intro h
    rw [h]
  · intro h
    apply Char.eq_of_val_eq
    exact UInt32.ext h

theorem toNat_ofNat_valid (n : Nat) (h : n.isValidChar) : (Char.ofNat n).toNat = n := by
  simp [Char.ofNat, h, Char.ofNatAux, Char.toNat, UInt32.toNat]

theorem asciiUpper_toNat (c : Char) :
    (asciiUpper c).toNat = if 97 ≤ c.toNat ∧ c.toNat ≤ 122 then c.toNat - 32 else c.toNat := by
  unfold asciiUpper
  split
  · next h =>
    have hv : (c.toNat - 32).isValidChar := by
      left
      omega
    exact toNat_ofNat_valid _ hv
  · rfl

theorem isSep_eq_decide (c : Char) : isSep c = decide (c.toNat = 58 ∨ c.toNat = 45) := by
  unfold isSep
  rw [Bool.decide_or]
  congr 1 <;> rw [decide_eq_decide, char_eq_iff_toNat] <;> rfl

theorem isDigitChar_eq_decide (c : Char) :
    isDigitChar c = decide (48 ≤ c.toNat ∧ c.toNat ≤ 57) := by
  unfold isDigitChar
  rw [Bool.decide_and]

theorem isHexDigitChar_eq_decide (c : Char) :
    isHexDigitChar c =
      decide ((48 ≤ c.toNat ∧ c.toNat ≤ 57) ∨ (97 ≤ c.toNat ∧ c.toNat ≤ 102) ∨
        (65 ≤ c.toNat ∧ c.toNat ≤ 70)) := by
  unfold isHexDigitChar isDigitChar
  simp only [Bool.decide_and, Bool.decide_or, Bool.or_assoc]

theorem isAlphaChar_eq_decide (c : Char) :
    isAlphaChar c = decide ((65 ≤ c.toNat ∧ c.toNat ≤ 90) ∨ (97 ≤ c.toNat ∧ c.toNat ≤ 122)) := by
  unfold isAlphaChar
  simp only [Bool.decide_and, Bool.decide_or]

theorem isAsciiChar_eq_decide (c : Char) : isAsciiChar c = decide (c.toNat ≤ 127) := rfl

theorem sepToColon_toNat (c : Char) :
    (sepToColon c).toNat = if c.toNat = 45 then 58 else c.toNat := by
  unfold sepToColon
  by_cases h : c = '-'
  · subst h
    rfl
  · rw [if_neg h, if_neg]
    rw [char_eq_iff_toNat] at h
    exact h

/-- An alphabetic character is never a decimal digit (used to stop
`trim_start_matches` after one strip). -/
theorem alpha_not_digit {c : Char} (h : isAlphaChar c = true) : isDigitChar c = false := by
  rw [isAlphaChar_eq_decide, decide_eq_true_eq] at h
  rw [isDigitChar_eq_decide, decide_eq_false_iff_not]
  omega

/-- Hex digits are not separators. -/
theorem hex_not_sep {c : Char} (h : isHexDigitChar c = true) : isSep c = false := by
  rw [isHexDigitChar_eq_decide, decide_eq_true_eq] at h
  rw [isSep_eq_decide, decide_eq_false_iff_not]
  omega

/-- Hex digits are not the sign character `+`. -/
theorem hex_ne_plus {c : Char} (h : isHexDigitChar c = true) : c ≠ '+' := by
  rw [isHexDigitChar_eq_decide, decide_eq_true_eq] at h
  rw [Ne, char_eq_iff_toNat]
  intro hc
  rw [show ('+').toNat = 43 from rfl] at hc
  omega

/-- Decimal digits are not the sign character `+`. -/
theorem digit_ne_plus {c : Char} (h : isDigitChar c = true) : c ≠ '+' := by
  rw [isDigitChar_eq_decide, decide_eq_true_eq] at h
  rw [Ne, char_eq_iff_toNat]
  intro hc
  rw [show ('+').toNat = 43 from rfl] at hc
  omega

theorem hexVal_le_15 {c : Char} (h : isHexDigitChar c = true) : hexVal c ≤ 15 := by
  rw [isHexDigitChar_eq_decide, decide_eq_true_eq] at h
  unfold hexVal
  split
  · omega
  · split <;> omega

theorem decVal_le_9 {c : Char} (h : isDigitChar c = true) : decVal c ≤ 9 := by
  rw [isDigitChar_eq_decide, decide_eq_true_eq] at h
  unfold decVal
  omega

/-- The upper-casing and dash-replacement composite used by
`hwaddr_normalize`. -/
def normChar (c : Char) : Char := asciiUpper (sepToColon c)

theorem normChar_toNat (c : Char) :
    (normChar c).toNat =
      if c.toNat = 45 then 58
      else if 97 ≤ c.toNat ∧ c.toNat ≤ 122 then c.toNat - 32
      else c.toNat := by
  unfold normChar
  rw [asciiUpper_toNat, sepToColon_toNat]
  by_cases h : c.toNat = 45
  · rw [if_pos h, if_pos h, if_neg (by omega)]
  · rw [if_neg h, if_neg h]

/-- Models `normChar` sends separators to separators and non-separators to
non-separators. -/
theorem isSep_normChar (c : Char) : isSep (normChar c) = isSep c := by
  rw [isSep_eq_decide, isSep_eq_decide, normChar_toNat]
  rw [decide_eq_decide]
  split
  · omega
  · split <;> omega

/-- Models `normChar` preserves hex-digit-hood (in both directions). -/
theorem isHexDigitChar_normChar (c : Char) :
    isHexDigitChar (normChar c) = isHexDigitChar c := by
  rw [isHexDigitChar_eq_decide, isHexDigitChar_eq_decide, normChar_toNat,
    decide_eq_decide]
  split
  · omega
  · split <;> omega

/-- Models `normChar` preserves hex digit values. -/
theorem hexVal_normChar {c : Char} (h : isHexDigitChar c = true) :
    hexVal (normChar c) = hexVal c := by
  rw [isHexDigitChar_eq_decide, decide_eq_true_eq] at h
  unfold hexVal
  rw [normChar_toNat]
  split_ifs <;> omega

/-- Models `normChar` preserves ASCII-ness. -/
theorem isAsciiChar_normChar (c : Char) : isAsciiChar (normChar c) = isAsciiChar c := by
  rw [isAsciiChar_eq_decide, isAsciiChar_eq_decide, normChar_toNat, decide_eq_decide]
  split
  · omega
  · split <;> omega

/-- Models `normChar` is idempotent. -/
theorem normChar_idem (c : Char) : normChar (normChar c) = normChar c := by
  rw [char_eq_iff_toNat, normChar_toNat (normChar c), normChar_toNat c]
  split
  · next h =>
    rw [if_neg (by omega), if_neg (by omega)]
  · split
    · next h1 h2 =>
      rw [if_neg (by omega), if_neg (by omega)]
    · next h1 h2 =>
      rfl

/-- Two characters that agree after dash-replacement have the same
`normChar`. -/
theorem normChar_of_sepToColon_eq {a b : Char} (h : sepToColon a = sepToColon b) :
    normChar a = normChar b := by
  unfold normChar
  rw [h]

/-- Models `sepToColon` maps `+` and only `+` to `+`. -/
theorem sepToColon_eq_plus_iff {c : Char} : sepToColon c = '+' ↔ c = '+' := by
  rw [char_eq_iff_toNat, char_eq_iff_toNat, sepToColon_toNat,
    show ('+').toNat = 43 from rfl]
  split
  · next h => omega
  · exact Iff.rfl

/-- Models `sepToColon` preserves hex digits. -/
theorem isHexDigitChar_sepToColon (c : Char) :
    isHexDigitChar (sepToColon c) = isHexDigitChar c := by
  rw [isHexDigitChar_eq_decide, isHexDigitChar_eq_decide, sepToColon_toNat,
    decide_eq_decide]
  split <;> omega

theorem isSep_sepToColon (c : Char) : isSep (sepToColon c) = isSep c := by
  rw [isSep_eq_decide, isSep_eq_decide, sepToColon_toNat, decide_eq_decide]
  split <;> omega

theorem isAsciiChar_sepToColon (c : Char) :
    isAsciiChar (sepToColon c) = isAsciiChar c := by
  rw [isAsciiChar_eq_decide, isAsciiChar_eq_decide, sepToColon_toNat, decide_eq_decide]
  split <;> omega

/-- On non-dash characters `sepToColon` is the identity. -/
theorem sepToColon_eq_self {c : Char} (h : c ≠ '-') : sepToColon c = c := by
  unfold sepToColon
  rw [if_neg h]

/-- An alphabetic character differs from every decimal digit. -/
theorem alpha_ne_digit {a d : Char} (ha : isAlphaChar a = true)
    (hd : isDigitChar d = true) : a ≠ d := by
  rw [isAlphaChar_eq_decide, decide_eq_true_eq] at ha
  rw [isDigitChar_eq_decide, decide_eq_true_eq] at hd
  rw [Ne, char_eq_iff_toNat]
  omega

/-! ## Lemmas about `splitSep`, parsing and `hwaddr_normalize` -/

theorem splitSep_ne_nil (l : List Char) : splitSep l ≠ [] := by
  cases l with
  | nil => simp [splitSep]
  | cons c rest =>
    unfold splitSep
    split <;> simp

theorem splitSep_sep_cons {c : Char} (h : isSep c = true) (l : List Char) :
    splitSep (c :: l) = [] :: splitSep l := by
  simp only [splitSep]
  rw [if_pos h]

theorem splitSep_nonsep_cons {c : Char} (h : isSep c = false) (l : List Char) :
    splitSep (c :: l) = (c :: (splitSep l).headD []) :: (splitSep l).tail := by
  simp only [splitSep]
  rw [if_neg (by simp [h])]

theorem splitSep_group2 {x y s : Char} (hx : isSep x = false) (hy : isSep y = false)
    (hs : isSep s = true) (l : List Char) :
    splitSep (x :: y :: s :: l) = [x, y] :: splitSep l := by
  rw [splitSep_nonsep_cons hx, splitSep_nonsep_cons hy, splitSep_sep_cons hs]
  simp

theorem splitSep_pair {x y : Char} (hx : isSep x = false) (hy : isSep y = false) :
    splitSep [x, y] = [[x, y]] := by
  rw [splitSep_nonsep_cons hx, splitSep_nonsep_cons hy]
  simp [splitSep]

/-- Models `splitSep` commutes with a character map that preserves separator-hood. -/
theorem splitSep_map (f : Char → Char) (hf : ∀ c, isSep (f c) = isSep c) :
    ∀ l : List Char, splitSep (l.map f) = (splitSep l).map (List.map f)
  | [] => by simp [splitSep]
  | c :: rest => by
    have ih := splitSep_map f hf rest
    by_cases h : isSep c = true
    · rw [List.map_cons, splitSep_sep_cons (by rw [hf]; exact h),
        splitSep_sep_cons h, ih]
      simp
    · rw [Bool.not_eq_true] at h
      rw [List.map_cons, splitSep_nonsep_cons (by rw [hf]; exact h),
        splitSep_nonsep_cons h, ih]
      have h1 : ((splitSep rest).map (List.map f)).headD [] =
          List.map f ((splitSep rest).headD []) := by
        cases hgs : splitSep rest with
        | nil => simp
        | cons g gs => simp
      have h2 : ((splitSep rest).map (List.map f)).tail =
          (splitSep rest).tail.map (List.map f) := by
        cases hgs : splitSep rest with
        | nil => simp
        | cons g gs => simp
      rw [h1, h2]
      simp

/-- Pointwise-equal predicates give equal `List.all`. -/
theorem all_congr_fun {α : Type} {l : List α} {p q : α → Bool} (h : ∀ c, p c = q c) :
    l.all p = l.all q := by
  induction l with
  | nil => rfl
  | cons c rest ih => simp only [List.all_cons, h c, ih]

/-- Models `digitsVal` only depends on the digit values. -/
theorem digitsVal_foldl_map_congr (radix : Nat) (vals : Char → Nat) (f : Char → Char) :
    ∀ (ds : List Char) (a : Nat), (∀ c ∈ ds, vals (f c) = vals c) →
      (ds.map f).foldl (fun a c => radix * a + vals c) a =
        ds.foldl (fun a c => radix * a + vals c) a
  | [], _, _ => rfl
  | c :: rest, a, h => by
    rw [List.map_cons, List.foldl_cons, List.foldl_cons, h c (by simp)]
    exact digitsVal_foldl_map_congr radix vals f rest _ fun d hd => h d (by simp [hd])

/-- Models `parseDigitsCore` is invariant under a digit-hood-preserving,
value-preserving character map. -/
theorem parseDigitsCore_map (radix : Nat) (vals : Char → Nat) (isD : Char → Bool)
    (maxVal : Nat) (f : Char → Char) (hisD : ∀ c, isD (f c) = isD c)
    (hvals : ∀ c, isD c = true → vals (f c) = vals c) (ds : List Char) :
    parseDigitsCore radix vals isD maxVal (ds.map f) =
      parseDigitsCore radix vals isD maxVal ds := by
  unfold parseDigitsCore
  have hemp : (ds.map f).isEmpty = ds.isEmpty := by
    cases ds <;> simp
  have hall : (ds.map f).all isD = ds.all isD := by
    rw [List.all_map]
    exact all_congr_fun hisD
  rw [hemp, hall]
  by_cases h : ((!ds.isEmpty) && ds.all isD) = true
  · rw [if_pos h, if_pos h]
    have hmem : ∀ c ∈ ds, vals (f c) = vals c := by
      intro c hc
      apply hvals
      rw [Bool.and_eq_true, List.all_eq_true] at h
      exact h.2 c hc
    unfold digitsVal
    rw [digitsVal_foldl_map_congr radix vals f ds 0 hmem]
  · rw [Bool.not_eq_true] at h
    rw [h]
    simp

theorem normChar_eq_plus_iff {c : Char} : normChar c = '+' ↔ c = '+' := by
  rw [char_eq_iff_toNat, char_eq_iff_toNat, normChar_toNat,
    show ('+').toNat = 43 from rfl]
  split
  · omega
  · split
    · omega
    · exact Iff.rfl

/-- Models `parseHexU8` is invariant under `normChar`. -/
theorem parseHexU8_map_normChar (s : List Char) :
    parseHexU8 (s.map normChar) = parseHexU8 s := by
  cases s with
  | nil => rfl
  | cons c rest =>
    rw [List.map_cons]
    simp only [parseHexU8]
    have hcore := parseDigitsCore_map 16 hexVal isHexDigitChar 255 normChar
      isHexDigitChar_normChar (fun d hd => hexVal_normChar hd)
    by_cases hc : c = '+'
    · rw [if_pos hc, if_pos (normChar_eq_plus_iff.mpr hc)]
      exact hcore rest
    · rw [if_neg hc, if_neg (fun h => hc (normChar_eq_plus_iff.mp h))]
      exact hcore (c :: rest)

/-- Hex digits are not dashes. -/
theorem hex_ne_dash {c : Char} (h : isHexDigitChar c = true) : c ≠ '-' := by
  have hs := hex_not_sep h
  intro hc
  subst hc
  simp [isSep] at hs

theorem hexVal_sepToColon {c : Char} (h : isHexDigitChar c = true) :
    hexVal (sepToColon c) = hexVal c := by
  rw [sepToColon_eq_self (hex_ne_dash h)]

/-- Models `parseHexU8` is invariant under `sepToColon`. -/
theorem parseHexU8_map_sepToColon (s : List Char) :
    parseHexU8 (s.map sepToColon) = parseHexU8 s := by
  cases s with
  | nil => rfl
  | cons c rest =>
    rw [List.map_cons]
    simp only [parseHexU8]
    have hcore := parseDigitsCore_map 16 hexVal isHexDigitChar 255 sepToColon
      isHexDigitChar_sepToColon (fun d hd => hexVal_sepToColon hd)
    by_cases hc : c = '+'
    · rw [if_pos hc, if_pos (sepToColon_eq_plus_iff.mpr hc)]
      exact hcore rest
    · rw [if_neg hc, if_neg (fun h => hc (sepToColon_eq_plus_iff.mp h))]
      exact hcore (c :: rest)

/-- Models `hwaddr_valid` is invariant under a character map that preserves
separators, ASCII-ness, and group parses. -/
theorem hwaddr_valid_map (f : Char → Char) (hsep : ∀ c, isSep (f c) = isSep c)
    (hascii : ∀ c, isAsciiChar (f c) = isAsciiChar c)
    (hparse : ∀ g : List Char, parseHexU8 (g.map f) = parseHexU8 g) (l : List Char) :
    hwaddr_valid (l.map f) = hwaddr_valid l := by
  unfold hwaddr_valid
  have h1 : (l.map f).all isAsciiChar = l.all isAsciiChar := by
    rw [List.all_map]
    exact all_congr_fun hascii
  have h2 : ((l.map f).length == 17) = (l.length == 17) := by
    rw [List.length_map]
  have h3 : (splitSep (l.map f)).all (fun g => (parseHexU8 g).isSome) =
      (splitSep l).all fun g => (parseHexU8 g).isSome := by
    rw [splitSep_map f hsep, List.all_map]
    apply all_congr_fun
    intro g
    simp only [Function.comp]
    rw [hparse g]
  rw [h1, h2, h3]

/-- On a valid address, `hwaddr_normalize` is exactly the character map
`normChar`. -/
theorem hwaddr_normalize_eq {addr : List Char} (h : hwaddr_valid addr = true) :
    hwaddr_normalize addr = some (addr.map normChar) := by
  unfold hwaddr_normalize
  rw [if_pos h]
  congr 1
  unfold replaceDashes
  by_cases hd : addr.contains '-'
  · rw [if_pos hd, List.map_map]
    rfl
  · rw [if_neg hd]
    have hnot : ('-') ∉ addr := fun hm => hd (List.elem_iff.mpr hm)
    apply List.map_congr_left
    intro c hc
    unfold normChar
    rw [sepToColon_eq_self]
    intro hdash
    subst hdash
    exact hnot hc

/-- A failed `hwaddr_normalize` means an invalid address. -/
theorem hwaddr_normalize_none {addr : List Char} (h : hwaddr_valid addr = false) :
    hwaddr_normalize addr = none := by
  unfold hwaddr_normalize
  rw [h]
  simp

/-! ## More character facts for the six-group sufficiency proof -/

theorem hex_ascii {c : Char} (h : isHexDigitChar c = true) : isAsciiChar c = true := by
  rw [isHexDigitChar_eq_decide, decide_eq_true_eq] at h
  rw [isAsciiChar_eq_decide, decide_eq_true_eq]
  omega

theorem sep_ascii {c : Char} (h : isSep c = true) : isAsciiChar c = true := by
  rw [isSep_eq_decide, decide_eq_true_eq] at h
  rw [isAsciiChar_eq_decide, decide_eq_true_eq]
  omega

/-- On separators, `normChar` is the colon. -/
theorem normChar_of_sep {c : Char} (h : isSep c = true) : normChar c = ':' := by
  rw [isSep_eq_decide, decide_eq_true_eq] at h
  rw [char_eq_iff_toNat, normChar_toNat, show (':').toNat = 58 from rfl]
  rcases h with h | h
  · rw [if_neg (by omega), if_neg (by omega)]
    exact h
  · rw [if_pos h]

/-- On hex digits, `normChar` is `asciiUpper`. -/
theorem normChar_of_hex {c : Char} (h : isHexDigitChar c = true) :
    normChar c = asciiUpper c := by
  unfold normChar
  rw [sepToColon_eq_self (hex_ne_dash h)]

/-- Parsing a two-hex-digit group always succeeds, with the obvious value. -/
theorem parseHexU8_pair {x y : Char} (hx : isHexDigitChar x = true)
    (hy : isHexDigitChar y = true) : parseHexU8 [x, y] = some (16 * hexVal x + hexVal y) := by
  have hxp : x ≠ '+' := hex_ne_plus hx
  simp only [parseHexU8]
  rw [if_neg hxp]
  unfold parseDigitsCore
  rw [if_pos (by simp [hx, hy])]
  have hv : digitsVal 16 hexVal [x, y] = 16 * hexVal x + hexVal y := by
    simp [digitsVal, List.foldl_cons]
  rw [hv]
  rw [if_pos]
  have h15x := hexVal_le_15 hx
  have h15y := hexVal_le_15 hy
  omega

/-! ## Spec-side predicate for claim C4

This definition follows the claim's words, not the source: "exactly 6
groups of exactly 2 hexadecimal digits each, separated by colons or
hyphens". -/

def specSixTwoGroups (addr : List Char) : Bool :=
  (splitSep addr).length == 6 &&
    (splitSep addr).all fun g => g.length == 2 && g.all isHexDigitChar

/-! ## Claim C4 (corrected): acceptance condition of `hwaddr_normalize` -/

/-- C4, counterexample: the address `"0:1:3:56:78:9a:bc"` has 7 groups, not
all of 2 digits, yet `hwaddr_normalize` accepts it — refuting "fails unless
the string consists of exactly 6 groups of exactly 2 hexadecimal digits". -/
theorem hwaddr_normalize_accepts_seven_groups :
    specSixTwoGroups (("0:1:3:56:78:9a:bc").data) = false ∧
      hwaddr_normalize (("0:1:3:56:78:9a:bc").data) =
        some (("0:1:3:56:78:9A:BC").data) := by
  constructor
  · decide
  · decide

/-- C4, amended: normalization fails unless the string is ASCII, exactly 17
characters long, and every colon/hyphen-separated group parses as a hex
byte (Rust `u8` hex parse, optional leading `+`); when it succeeds, the
result is the input with `-` replaced by `:` and ASCII letters upper-cased. -/
theorem hwaddr_normalize_success_characterization (s : List Char) :
    ((hwaddr_normalize s).isSome = true ↔
      ((∀ c ∈ s, isAsciiChar c = true) ∧ s.length = 17 ∧
        ∀ g ∈ splitSep s, (parseHexU8 g).isSome = true)) ∧
    ∀ r, hwaddr_normalize s = some r → r = s.map normChar := by
  constructor
  · unfold hwaddr_normalize
    by_cases h : hwaddr_valid s = true
    · rw [if_pos h]
      simp only [Option.isSome_some, true_iff]
      unfold hwaddr_valid at h
      simp only [Bool.and_eq_true, List.all_eq_true, beq_iff_eq] at h
      exact ⟨h.1.1, h.1.2, h.2⟩
    · rw [if_neg h]
      simp only [Option.isSome_none, Bool.false_eq_true, false_iff]
      intro hcond
      apply h
      unfold hwaddr_valid
      simp only [Bool.and_eq_true, List.all_eq_true, beq_iff_eq]
      exact ⟨⟨hcond.1, hcond.2.1⟩, hcond.2.2⟩
  · intro r hr
    by_cases h : hwaddr_valid s = true
    · rw [hwaddr_normalize_eq h] at hr
      exact (Option.some_inj.mp hr).symm
    · rw [Bool.not_eq_true] at h
      rw [hwaddr_normalize_none h] at hr
      exact absurd hr (by simp)

/-- Witness for C4's amended theorem at a concrete input. -/
theorem hwaddr_normalize_success_characterization_witness :
    (hwaddr_normalize (("aa-bb-cc-dd-ee-ff").data)).isSome = true ∧
      ("AA:BB:CC:DD:EE:FF").data = (("aa-bb-cc-dd-ee-ff").data).map normChar := by
  constructor
  · exact (hwaddr_normalize_success_characterization (("aa-bb-cc-dd-ee-ff").data)).1.mpr
      (by decide)
  · exact (hwaddr_normalize_success_characterization (("aa-bb-cc-dd-ee-ff").data)).2
      (("AA:BB:CC:DD:EE:FF").data) (by decide)

/-! ## Claim C8 (confirmed): idempotence and separator invariance -/

/-- C8: hardware-address normalization is idempotent — whenever it succeeds,
normalizing the result returns it unchanged — and two spellings of the same
address bytes that differ only in their choice of `:` versus `-` separators
normalize to the same value. -/
theorem hwaddr_normalize_idem_and_sep_invariant :
    (∀ s r, hwaddr_normalize s = some r → hwaddr_normalize r = some r) ∧
    ∀ s1 s2, s1.map sepToColon = s2.map sepToColon →
      hwaddr_normalize s1 = hwaddr_normalize s2 := by
  have hvmapn : ∀ l : List Char, hwaddr_valid (l.map normChar) = hwaddr_valid l :=
    hwaddr_valid_map normChar isSep_normChar isAsciiChar_normChar parseHexU8_map_normChar
  have hvmaps : ∀ l : List Char, hwaddr_valid (l.map sepToColon) = hwaddr_valid l :=
    hwaddr_valid_map sepToColon isSep_sepToColon isAsciiChar_sepToColon
      parseHexU8_map_sepToColon
  constructor
  · intro s r hr
    by_cases h : hwaddr_valid s = true
    · rw [hwaddr_normalize_eq h] at hr
      have hr2 := (Option.some_inj.mp hr).symm
      subst hr2
      have hvr : hwaddr_valid (s.map normChar) = true := by rw [hvmapn]; exact h
      rw [hwaddr_normalize_eq hvr, List.map_map]
      congr 1
      apply List.map_congr_left
      intro c _
      exact normChar_idem c
    · rw [Bool.not_eq_true] at h
      rw [hwaddr_normalize_none h] at hr
      exact absurd hr (by simp)
  · intro s1 s2 h12
    have hv : hwaddr_valid s1 = hwaddr_valid s2 := by
      rw [← hvmaps s1, ← hvmaps s2, h12]
    by_cases h : hwaddr_valid s1 = true
    · rw [hwaddr_normalize_eq h, hwaddr_normalize_eq (by rw [← hv]; exact h)]
      congr 1
      have e1 : s1.map normChar = (s1.map sepToColon).map asciiUpper := by
        rw [List.map_map]
        rfl
      have e2 : s2.map normChar = (s2.map sepToColon).map asciiUpper := by
        rw [List.map_map]
        rfl
      rw [e1, e2, h12]
    · rw [Bool.not_eq_true] at h
      rw [hwaddr_normalize_none h, hwaddr_normalize_none (by rw [← hv]; exact h)]

/-- Witness for C8 at concrete inputs. -/
theorem hwaddr_normalize_idem_and_sep_invariant_witness :
    hwaddr_normalize (("52:54:00:52:1F:93").data) = some (("52:54:00:52:1F:93").data) ∧
      hwaddr_normalize (("52-54-00-52-1f-93").data) =
        hwaddr_normalize (("52:54:00:52:1f:93").data) := by
  constructor
  · exact hwaddr_normalize_idem_and_sep_invariant.1 (("52:54:00:52:1f:93").data)
      (("52:54:00:52:1F:93").data) (by decide)
  · exact hwaddr_normalize_idem_and_sep_invariant.2 (("52-54-00-52-1f-93").data)
      (("52:54:00:52:1f:93").data) (by decide)

/-! ## Claim C10 (confirmed): mixed separators are accepted -/

/-- C10: any string of six two-hex-digit groups whose five separators are
each (independently) a colon or a hyphen passes `hwaddr_valid`, and
`hwaddr_normalize` returns the uppercase, fully colon-separated form;
separator uniformity is not required. -/
theorem mixed_separators_accepted (a1 a2 b1 b2 c1 c2 d1 d2 e1 e2 f1 f2 s1 s2 s3 s4 s5 : Char)
    (hhex : ∀ x ∈ [a1, a2, b1, b2, c1, c2, d1, d2, e1, e2, f1, f2], isHexDigitChar x = true)
    (hsep : ∀ x ∈ [s1, s2, s3, s4, s5], isSep x = true) :
    hwaddr_valid [a1, a2, s1, b1, b2, s2, c1, c2, s3, d1, d2, s4, e1, e2, s5, f1, f2] = true ∧
      hwaddr_normalize [a1, a2, s1, b1, b2, s2, c1, c2, s3, d1, d2, s4, e1, e2, s5, f1, f2] =
        some [asciiUpper a1, asciiUpper a2, ':', asciiUpper b1, asciiUpper b2, ':',
          asciiUpper c1, asciiUpper c2, ':', asciiUpper d1, asciiUpper d2, ':',
          asciiUpper e1, asciiUpper e2, ':', asciiUpper f1, asciiUpper f2] := by
  simp only [List.mem_cons, List.not_mem_nil, or_false, forall_eq_or_imp, forall_eq] at hhex hsep
  obtain ⟨ha1, ha2, hb1, hb2, hc1, hc2, hd1, hd2, he1, he2, hf1, hf2⟩ := hhex
  obtain ⟨hs1, hs2, hs3, hs4, hs5⟩ := hsep
  have hsplit : splitSep [a1, a2, s1, b1, b2, s2, c1, c2, s3, d1, d2, s4, e1, e2, s5, f1, f2] =
      [[a1, a2], [b1, b2], [c1, c2], [d1, d2], [e1, e2], [f1, f2]] := by
    rw [splitSep_group2 (hex_not_sep ha1) (hex_not_sep ha2) hs1,
      splitSep_group2 (hex_not_sep hb1) (hex_not_sep hb2) hs2,
      splitSep_group2 (hex_not_sep hc1) (hex_not_sep hc2) hs3,
      splitSep_group2 (hex_not_sep hd1) (hex_not_sep hd2) hs4,
      splitSep_group2 (hex_not_sep he1) (hex_not_sep he2) hs5,
      splitSep_pair (hex_not_sep hf1) (hex_not_sep hf2)]
  have hvalid : hwaddr_valid
      [a1, a2, s1, b1, b2, s2, c1, c2, s3, d1, d2, s4, e1, e2, s5, f1, f2] = true := by
    unfold hwaddr_valid
    rw [hsplit]
    simp only [Bool.and_eq_true, List.all_cons, List.all_nil, beq_iff_eq, List.length_cons]
    refine ⟨⟨?_, rfl⟩, ?_⟩
    · exact ⟨hex_ascii ha1, hex_ascii ha2, sep_ascii hs1, hex_ascii hb1, hex_ascii hb2,
        sep_ascii hs2, hex_ascii hc1, hex_ascii hc2, sep_ascii hs3, hex_ascii hd1,
        hex_ascii hd2, sep_ascii hs4, hex_ascii he1, hex_ascii he2, sep_ascii hs5,
        hex_ascii hf1, hex_ascii hf2, trivial⟩
    · rw [parseHexU8_pair ha1 ha2, parseHexU8_pair hb1 hb2, parseHexU8_pair hc1 hc2,
        parseHexU8_pair hd1 hd2, parseHexU8_pair he1 he2, parseHexU8_pair hf1 hf2]
      simp
  refine ⟨hvalid, ?_⟩
  rw [hwaddr_normalize_eq hvalid]
  congr 1
  simp only [List.map_cons, List.map_nil]
  rw [normChar_of_hex ha1, normChar_of_hex ha2, normChar_of_sep hs1,
    normChar_of_hex hb1, normChar_of_hex hb2, normChar_of_sep hs2,
    normChar_of_hex hc1, normChar_of_hex hc2, normChar_of_sep hs3,
    normChar_of_hex hd1, normChar_of_hex hd2, normChar_of_sep hs4,
    normChar_of_hex he1, normChar_of_hex he2, normChar_of_sep hs5,
    normChar_of_hex hf1, normChar_of_hex hf2]

/-- Witness for C10 at the mixed-separator address `"11-22:33-44:55-66"`. -/
theorem mixed_separators_accepted_witness :
    hwaddr_valid (("11-22:33-44:55-66").data) = true ∧
      hwaddr_normalize (("11-22:33-44:55-66").data) =
        some (("11:22:33:44:55:66").data) := by
  have h := mixed_separators_accepted '1' '1' '2' '2' '3' '3' '4' '4' '5' '5' '6' '6'
    '-' ':' '-' ':' '-' (by decide) (by decide)
  exact ⟨h.1, h.2.trans (by decide)⟩

/-! ## Lemmas about `trimStartMatches` and `parseU64` -/

theorem trimAux_nil (p : List Char) : ∀ m : Nat, trimAux p m [] = []
  | 0 => rfl
  | m + 1 => by
    unfold trimAux
    split
    · rw [List.drop_nil]
      exact trimAux_nil p m
    · rfl

theorem trimAux_of_ge (p : List Char) :
    ∀ (n m : Nat) (s : List Char), s.length ≤ n → s.length ≤ m →
      trimAux p n s = trimAux p m s
  | 0, m, s, hn, _ => by
    have hs : s = [] := List.eq_nil_of_length_eq_zero (Nat.le_zero.mp hn)
    subst hs
    rw [trimAux_nil, trimAux_nil]
  | n + 1, 0, s, _, hm => by
    have hs : s = [] := List.eq_nil_of_length_eq_zero (Nat.le_zero.mp hm)
    subst hs
    rw [trimAux_nil, trimAux_nil]
  | n + 1, m + 1, s, hn, hm => by
    unfold trimAux
    split
    · next hguard =>
      simp only [Bool.and_eq_true, Bool.not_eq_eq_eq_not, Bool.not_true,
        List.isEmpty_eq_false] at hguard
      have hple : 1 ≤ p.length := by
        cases p with
        | nil => exact absurd rfl hguard.2
        | cons a as => simp
      have hpre : p.length ≤ s.length := by
        have hpp := List.isPrefixOf_iff_prefix.mp hguard.1
        exact List.IsPrefix.length_le hpp
      apply trimAux_of_ge p n m
      · rw [List.length_drop]
        omega
      · rw [List.length_drop]
        omega
    · rfl

theorem trim_of_not_pfx {p s : List Char} (h : p.isPrefixOf s = false) :
    trimStartMatches p s = s := by
  unfold trimStartMatches
  cases hn : s.length with
  | zero => rfl
  | succ n =>
    unfold trimAux
    rw [if_neg]
    simp [h]

theorem isPrefixOf_self_append (p ds : List Char) : p.isPrefixOf (p ++ ds) = true := by
  induction p with
  | nil => simp [List.isPrefixOf]
  | cons a as ih => simp [List.isPrefixOf, ih]

theorem trim_append {p ds : List Char} (hp : p ≠ []) :
    trimStartMatches p (p ++ ds) = trimStartMatches p ds := by
  have hple : 1 ≤ p.length := by
    cases p with
    | nil => exact absurd rfl hp
    | cons a as => simp
  obtain ⟨k, hk⟩ : ∃ k, (p ++ ds).length = k + 1 := by
    rw [List.length_append]
    exact ⟨p.length + ds.length - 1, by omega⟩
  have hstep : trimStartMatches p (p ++ ds) = trimAux p k ds := by
    unfold trimStartMatches
    rw [hk]
    show (if (p.isPrefixOf (p ++ ds) && !p.isEmpty) = true
      then trimAux p k ((p ++ ds).drop p.length) else p ++ ds) = trimAux p k ds
    rw [if_pos, List.drop_left]
    simp only [Bool.and_eq_true, Bool.not_eq_eq_eq_not, Bool.not_true,
      List.isEmpty_eq_false]
    exact ⟨isPrefixOf_self_append p ds, hp⟩
  rw [hstep]
  unfold trimStartMatches
  apply trimAux_of_ge
  · rw [List.length_append] at hk
    omega
  · exact Nat.le_refl _

/-- Stripping an alphabetic prefix from `<pfx><digits>` yields exactly the
digits (the prefix cannot match a second time, since digits are not
alphabetic). -/
theorem trim_pfx_digits {p ds : List Char} (hp : p ≠ [])
    (hpa : ∀ c ∈ p, isAlphaChar c = true) (hds : ∀ c ∈ ds, isDigitChar c = true) :
    trimStartMatches p (p ++ ds) = ds := by
  rw [trim_append hp]
  apply trim_of_not_pfx
  cases p with
  | nil => exact absurd rfl hp
  | cons a as =>
    cases ds with
    | nil => rfl
    | cons d ds2 =>
      simp only [List.isPrefixOf_cons₂]
      have hne : a ≠ d := alpha_ne_digit (hpa a (by simp)) (hds d (by simp))
      simp [hne]

/-- Decimal value bound: a digit run of length `n` has value below `10^n`. -/
theorem decDigits_foldl_lt :
    ∀ (ds : List Char) (a : Nat), (∀ c ∈ ds, isDigitChar c = true) →
      ds.foldl (fun a c => 10 * a + decVal c) a < (a + 1) * 10 ^ ds.length
  | [], a, _ => by simp
  | c :: rest, a, h => by
    rw [List.foldl_cons]
    have hrec := decDigits_foldl_lt rest (10 * a + decVal c) fun d hd => h d (by simp [hd])
    have hd9 : decVal c ≤ 9 := decVal_le_9 (h c (by simp))
    have hstep : (10 * a + decVal c + 1) * 10 ^ rest.length ≤ (a + 1) * 10 ^ (c :: rest).length := by
      rw [List.length_cons, pow_succ]
      have h1 : 10 * a + decVal c + 1 ≤ (a + 1) * 10 := by omega
      calc (10 * a + decVal c + 1) * 10 ^ rest.length
          ≤ (a + 1) * 10 * 10 ^ rest.length := Nat.mul_le_mul_right _ h1
        _ = (a + 1) * (10 ^ rest.length * 10) := by ring
    exact Nat.lt_of_lt_of_le hrec hstep

/-- Models `str::parse::<u64>()` succeeds on a non-empty in-range digit run and
returns its decimal value. -/
theorem parseU64_digits {ds : List Char} (hne : ds ≠ [])
    (hds : ∀ c ∈ ds, isDigitChar c = true) (hlt : digitsVal 10 decVal ds ≤ 2 ^ 64 - 1) :
    parseU64 ds = some (digitsVal 10 decVal ds) := by
  cases ds with
  | nil => exact absurd rfl hne
  | cons c rest =>
    simp only [parseU64]
    rw [if_neg (digit_ne_plus (hds c (by simp)))]
    unfold parseDigitsCore
    rw [if_pos]
    · simp only
      rw [if_pos hlt]
    · simp only [Bool.and_eq_true, List.all_eq_true, Bool.not_eq_eq_eq_not, Bool.not_true,
        List.isEmpty_eq_false]
      exact ⟨by simp, hds⟩

/-- Each character contributes at least one byte. -/
theorem length_le_byteLen (l : List Char) : l.length ≤ byteLen l := by
  induction l with
  | nil => simp [byteLen]
  | cons c rest ih =>
    unfold byteLen at ih ⊢
    simp only [List.map_cons, List.sum_cons, List.length_cons]
    have := Char.utf8Size_pos c
    omega

theorem byteLen_append (l1 l2 : List Char) : byteLen (l1 ++ l2) = byteLen l1 + byteLen l2 := by
  unfold byteLen
  rw [List.map_append, List.sum_append]

/-! ## Lemmas about the stable sort and the consecutive dedup -/

theorem countOcc_insertByIndex (r x : PrefixedLink) (l : List PrefixedLink) :
    countOcc r (insertByIndex x l) = (if x = r then 1 else 0) + countOcc r l := by
  induction l with
  | nil => rfl
  | cons y ys ih =>
    unfold insertByIndex
    split
    · rfl
    · simp only [countOcc, ih]
      omega

theorem mem_insertByIndex {r x : PrefixedLink} {l : List PrefixedLink} :
    r ∈ insertByIndex x l ↔ r = x ∨ r ∈ l := by
  induction l with
  | nil => simp [insertByIndex]
  | cons y ys ih =>
    unfold insertByIndex
    split
    · simp
    · simp only [List.mem_cons, ih]
      tauto

theorem pairwise_insertByIndex {x : PrefixedLink} {l : List PrefixedLink}
    (h : List.Pairwise (fun a b => a.index ≤ b.index) l) :
    List.Pairwise (fun a b => a.index ≤ b.index) (insertByIndex x l) := by
  induction l with
  | nil => simp [insertByIndex]
  | cons y ys ih =>
    rw [List.pairwise_cons] at h
    unfold insertByIndex
    split
    · next hxy =>
      rw [List.pairwise_cons]
      constructor
      · intro z hz
        rcases List.mem_cons.mp hz with rfl | hz2
        · exact hxy
        · exact Nat.le_trans hxy (h.1 z hz2)
      · rw [List.pairwise_cons]
        exact h
    · next hxy =>
      rw [List.pairwise_cons]
      constructor
      · intro z hz
        rcases mem_insertByIndex.mp hz with rfl | hz2
        · omega
        · exact h.1 z hz2
      · exact ih h.2

theorem countOcc_sortByIndex (r : PrefixedLink) (l : List PrefixedLink) :
    countOcc r (sortByIndex l) = countOcc r l := by
  induction l with
  | nil => rfl
  | cons x xs ih =>
    unfold sortByIndex
    rw [countOcc_insertByIndex]
    simp only [countOcc, ih]

theorem mem_sortByIndex {r : PrefixedLink} {l : List PrefixedLink} :
    r ∈ sortByIndex l ↔ r ∈ l := by
  induction l with
  | nil => simp [sortByIndex]
  | cons x xs ih =>
    unfold sortByIndex
    rw [mem_insertByIndex]
    simp only [List.mem_cons, ih]

theorem pairwise_sortByIndex (l : List PrefixedLink) :
    List.Pairwise (fun a b => a.index ≤ b.index) (sortByIndex l) := by
  induction l with
  | nil => simp [sortByIndex]
  | cons x xs ih =>
    unfold sortByIndex
    exact pairwise_insertByIndex ih

theorem dedupConsec_sublist : ∀ l : List PrefixedLink, (dedupConsec l).Sublist l
  | [] => List.Sublist.refl []
  | [a] => List.Sublist.refl [a]
  | a :: b :: rest => by
    unfold dedupConsec
    split
    · exact (dedupConsec_sublist (b :: rest)).cons a
    · exact (dedupConsec_sublist (b :: rest)).cons₂ a

theorem mem_dedupConsec {r : PrefixedLink} : ∀ {l : List PrefixedLink},
    r ∈ dedupConsec l ↔ r ∈ l
  | [] => Iff.rfl
  | [a] => Iff.rfl
  | a :: b :: rest => by
    unfold dedupConsec
    split
    · next hab =>
      subst hab
      rw [mem_dedupConsec]
      simp
    · rw [List.mem_cons, mem_dedupConsec]
      simp

theorem countOcc_eq_zero_of_not_mem {r : PrefixedLink} {l : List PrefixedLink}
    (h : r ∉ l) : countOcc r l = 0 := by
  induction l with
  | nil => rfl
  | cons x xs ih =>
    simp only [countOcc]
    rw [if_neg, ih fun hx => h (List.mem_cons_of_mem x hx)]
    intro hx
    apply h
    rw [← hx]
    exact List.mem_cons_self x xs

/-- On a sorted list in which the index determines the record, consecutive
dedup leaves exactly one copy of each member. -/
theorem countOcc_dedupConsec_sorted (r : PrefixedLink) : ∀ l : List PrefixedLink,
    List.Pairwise (fun a b => a.index ≤ b.index) l →
    (∀ s ∈ l, s.index = r.index → s = r) → r ∈ l →
    countOcc r (dedupConsec l) = 1
  | [], _, _, hmem => absurd hmem (List.not_mem_nil r)
  | [a], _, _, hmem => by
    rcases List.mem_singleton.mp hmem with rfl
    simp [dedupConsec, countOcc]
  | a :: b :: rest, hsort, huniq, hmem => by
    unfold dedupConsec
    split
    · next hab =>
      apply countOcc_dedupConsec_sorted r (b :: rest) hsort.tail
        (fun s hs hidx => huniq s (List.mem_cons_of_mem a hs) hidx)
      rcases List.mem_cons.mp hmem with rfl | hmem2
      · rw [hab]
        exact List.mem_cons_self b rest
      · exact hmem2
    · next hab =>
      by_cases har : r = a
      · subst har
        have hnot : r ∉ b :: rest := by
          intro hrmem
          rcases List.mem_cons.mp hrmem with rfl | hrt
          · exact hab rfl
          · have hs1 := List.pairwise_cons.mp hsort
            have hs2 := List.pairwise_cons.mp hs1.2
            have h1 : r.index ≤ b.index := hs1.1 b (List.mem_cons_self b rest)
            have h2 : b.index ≤ r.index := hs2.1 r hrt
            have hb : b = r := huniq b (by simp) (by omega)
            exact hab hb.symm
        simp only [countOcc, if_pos rfl]
        rw [countOcc_eq_zero_of_not_mem (fun hx => hnot (mem_dedupConsec.mp hx))]
        simp
      · have hmem2 : r ∈ b :: rest := by
          rcases List.mem_cons.mp hmem with rfl | h2
          · exact absurd rfl har
          · exact h2
        simp only [countOcc]
        rw [if_neg (fun h => har h.symm)]
        rw [countOcc_dedupConsec_sorted r (b :: rest) hsort.tail
          (fun s hs hidx => huniq s (List.mem_cons_of_mem a hs) hidx) hmem2]

/-! ## The next-name allocator: core lemmas and claims C1 / C5 -/

/-- In a list sorted by `index`, the last element carries the maximal index. -/
theorem getLast?_max : ∀ (l : List PrefixedLink),
    List.Pairwise (fun a b => a.index ≤ b.index) l → l ≠ [] →
    ∃ la, l.getLast? = some la ∧ la ∈ l ∧ ∀ x ∈ l, x.index ≤ la.index
  | [], _, hne => absurd rfl hne
  | [a], _, _ => ⟨a, rfl, by simp, by simp⟩
  | a :: b :: rest, hsort, _ => by
    obtain ⟨la, h1, h2, h3⟩ := getLast?_max (b :: rest) hsort.tail (by simp)
    refine ⟨la, ?_, List.mem_cons_of_mem a h2, ?_⟩
    · rw [List.getLast?_cons_cons]
      exact h1
    · intro x hx
      rcases List.mem_cons.mp hx with rfl | hx2
      · exact (List.pairwise_cons.mp hsort).1 la h2
      · exact h3 x hx2

/-- The "loaded roster" shape of a record whose name is the active prefix
followed immediately by decimal digits: the sequence field is the decimal
value of the digit suffix (as `PrefixedLink::new_with_hwaddr` computes it)
and the name passed `link_name_sane`'s 16-byte bound. -/
def linkNamedByPfx (pfx : List Char) (l : PrefixedLink) : Prop :=
  ∃ ds, ds ≠ [] ∧ (∀ c ∈ ds, isDigitChar c = true) ∧ l.name = pfx ++ ds ∧
    l.index = digitsVal 10 decVal ds ∧ byteLen l.name ≤ 16

/-- Core allocator lemma: on a sorted roster of prefix+digit names whose
maximal sequence is `N`, the allocator returns `<pfx><N+1>`. -/
theorem next_link_name_core (c : NetSetupLinkConfig) (hpne : c.ifnamePfx ≠ [])
    (hpa : ∀ ch ∈ c.ifnamePfx, isAlphaChar ch = true)
    (hnames : ∀ l ∈ c.links, linkNamedByPfx c.ifnamePfx l)
    (hsorted : List.Pairwise (fun a b => a.index ≤ b.index) c.links)
    (N : Nat) (hex : ∃ l ∈ c.links, l.index = N) (hmax : ∀ l ∈ c.links, l.index ≤ N) :
    next_link_name c = some (c.ifnamePfx ++ Nat.toDigits 10 (N + 1)) := by
  obtain ⟨l0, hl0, hl0N⟩ := hex
  have hne : c.links ≠ [] := fun h => by
    rw [h] at hl0
    exact List.not_mem_nil l0 hl0
  obtain ⟨la, hglast, hlamem, hlamax⟩ := getLast?_max c.links hsorted hne
  obtain ⟨ds, hdsne, hdsdig, hname, hidx, hblen⟩ := hnames la hlamem
  have hlaN : la.index = N := by
    have h1 := hlamax l0 hl0
    have h2 := hmax la hlamem
    omega
  have hdslen : ds.length ≤ 15 := by
    have h1 := length_le_byteLen ds
    have h2 := length_le_byteLen c.ifnamePfx
    have h3 : 1 ≤ c.ifnamePfx.length := by
      cases hp : c.ifnamePfx with
      | nil => exact absurd hp hpne
      | cons a as => simp
    rw [hname, byteLen_append] at hblen
    omega
  have hval : digitsVal 10 decVal ds ≤ 2 ^ 64 - 1 := by
    have h1 := decDigits_foldl_lt ds 0 hdsdig
    have h2 : 10 ^ ds.length ≤ 10 ^ 15 := Nat.pow_le_pow_right (by omega) hdslen
    unfold digitsVal
    have h3 : (10 : Nat) ^ 15 ≤ 2 ^ 64 - 1 := by norm_num
    omega
  unfold next_link_name
  rw [hglast]
  simp only
  rw [hname, trim_pfx_digits hpne hpa hdsdig, parseU64_digits hdsne hdsdig hval]
  rw [show digitsVal 10 decVal ds = N from by rw [← hidx, hlaN]]
  rfl

/-- C1 (confirmed): on a loaded roster for active prefix `P` whose records'
names are all `P` followed immediately by decimal digits, the allocator
returns `P0` for an empty roster and `P(N+1)` where `N` is the maximal
sequence otherwise — so sequence numbers absent below the maximum are never
reused. -/
theorem next_link_name_alloc (c : NetSetupLinkConfig) (hpne : c.ifnamePfx ≠ [])
    (hpa : ∀ ch ∈ c.ifnamePfx, isAlphaChar ch = true)
    (hnames : ∀ l ∈ c.links, linkNamedByPfx c.ifnamePfx l)
    (hsorted : List.Pairwise (fun a b => a.index ≤ b.index) c.links) :
    (c.links = [] → next_link_name c = some (c.ifnamePfx ++ ("0").data)) ∧
    ∀ N, (∃ l ∈ c.links, l.index = N) → (∀ l ∈ c.links, l.index ≤ N) →
      next_link_name c = some (c.ifnamePfx ++ Nat.toDigits 10 (N + 1)) := by
  constructor
  · intro hnil
    unfold next_link_name
    rw [hnil]
    rfl
  · intro N hex hmax
    exact next_link_name_core c hpne hpa hnames hsorted N hex hmax

/-- Witness for C1: the gap roster `{net0, net2}` yields `net3`, not `net1`,
and the empty roster yields `net0`. -/
theorem next_link_name_alloc_witness :
    next_link_name ⟨[], [⟨("net0").data, 0, ("AA:BB:CC:DD:EE:00").data⟩,
        ⟨("net2").data, 2, ("AA:BB:CC:DD:EE:02").data⟩], ("net").data⟩ =
      some (("net3").data) ∧
    next_link_name ⟨[], [], ("net").data⟩ = some (("net0").data) := by
  constructor
  · have h := next_link_name_alloc
      ⟨[], [⟨("net0").data, 0, ("AA:BB:CC:DD:EE:00").data⟩,
        ⟨("net2").data, 2, ("AA:BB:CC:DD:EE:02").data⟩], ("net").data⟩
      (by decide) (by decide) ?names (by decide)
    case names =>
      intro l hl
      simp only [List.mem_cons, List.not_mem_nil, or_false] at hl
      rcases hl with rfl | rfl
      · exact ⟨("0").data, by decide, by decide, by decide, by decide, by decide⟩
      · exact ⟨("2").data, by decide, by decide, by decide, by decide, by decide⟩
    have h2 := h.2 2 ⟨⟨("net2").data, 2, ("AA:BB:CC:DD:EE:02").data⟩, by simp, rfl⟩
      (by intro l hl; simp only [List.mem_cons, List.not_mem_nil, or_false] at hl
          rcases hl with rfl | rfl
          · decide
          · decide)
    rw [h2]
    decide
  · have h := next_link_name_alloc ⟨[], [], ("net").data⟩ (by decide) (by decide)
      (by intro l hl; exact absurd hl (List.not_mem_nil l)) (by decide)
    exact h.1 rfl

/-- C5, counterexample: the record `neta1` passes `PrefixedLink` validation
(§4.1) and starts with the active prefix `net`, survives the merge, and yet
`next_link_name` fails with the sequence-parse error — the error branch is
reachable under the claim's precondition. -/
theorem next_link_name_seq_error_reachable :
    PrefixedLink.new_with_hwaddr (("neta1").data) (("aa:bb:cc:dd:ee:ff").data) =
      some ⟨("neta1").data, 1, ("AA:BB:CC:DD:EE:FF").data⟩ ∧
    (("net").data).isPrefixOf (("neta1").data) = true ∧
    mergeLinks [⟨("neta1").data, 1, ("AA:BB:CC:DD:EE:FF").data⟩] [] =
      [⟨("neta1").data, 1, ("AA:BB:CC:DD:EE:FF").data⟩] ∧
    next_link_name ⟨[], [⟨("neta1").data, 1, ("AA:BB:CC:DD:EE:FF").data⟩],
      ("net").data⟩ = none := by
  exact ⟨by decide, by decide, by decide, by decide⟩

/-- C5, amended: the allocator never fails on a sorted roster whose records'
names are the active prefix followed immediately by decimal digits (the
stronger precondition that the claim's `P`-prefix filter alone does not
ensure). -/
theorem next_link_name_total (c : NetSetupLinkConfig) (hpne : c.ifnamePfx ≠ [])
    (hpa : ∀ ch ∈ c.ifnamePfx, isAlphaChar ch = true)
    (hnames : ∀ l ∈ c.links, linkNamedByPfx c.ifnamePfx l)
    (hsorted : List.Pairwise (fun a b => a.index ≤ b.index) c.links) :
    (next_link_name c).isSome = true := by
  by_cases hnil : c.links = []
  · unfold next_link_name
    rw [hnil]
    rfl
  · obtain ⟨la, _, hlamem, hlamax⟩ := getLast?_max c.links hsorted hnil
    rw [next_link_name_core c hpne hpa hnames hsorted la.index ⟨la, hlamem, rfl⟩ hlamax]
    rfl

/-- Witness for C5's amended theorem. -/
theorem next_link_name_total_witness :
    (next_link_name ⟨[], [⟨("net1").data, 1, ("AA:BB:CC:DD:EE:01").data⟩],
      ("net").data⟩).isSome = true := by
  apply next_link_name_total _ (by decide) (by decide) ?names (by decide)
  case names =>
    intro l hl
    simp only [List.mem_cons, List.not_mem_nil, or_false] at hl
    rcases hl with rfl
    exact ⟨("1").data, by decide, by decide, by decide, by decide, by decide⟩

/-! ## Claim C3: the merge -/

/-- C3, counterexample: with the same-sequence records `net1` (address
`…:F1`) and `net01` (address `…:F2`), a device present in both sources
contributes TWO entries to the merged roster, because the stable sort
leaves the distinct record `net01` between the two equal `net1` records and
`Vec::dedup` removes only consecutive duplicates. -/
theorem mergeLinks_duplicate_survives :
    countOcc ⟨("net1").data, 1, ("AA:BB:CC:DD:EE:F1").data⟩
      (mergeLinks
        [⟨("net1").data, 1, ("AA:BB:CC:DD:EE:F1").data⟩,
         ⟨("net01").data, 1, ("AA:BB:CC:DD:EE:F2").data⟩]
        [⟨("net1").data, 1, ("AA:BB:CC:DD:EE:F1").data⟩]) = 2 := by
  decide

/-- C3, amended: the merged roster is the concatenation of the two source
lists, stably sorted ascending by sequence, with *consecutive* fully-equal
duplicates removed; it is sorted by sequence, and a record present in both
sources contributes exactly one entry provided every record sharing its
sequence number is fully equal to it (in particular whenever distinct
records have distinct sequences). -/
theorem mergeLinks_sorted_and_dedup (udevLinks fileLinks : List PrefixedLink)
    (r : PrefixedLink) :
    List.Pairwise (fun a b => a.index ≤ b.index) (mergeLinks udevLinks fileLinks) ∧
    (r ∈ udevLinks ++ fileLinks →
      (∀ s ∈ udevLinks ++ fileLinks, s.index = r.index → s = r) →
      countOcc r (mergeLinks udevLinks fileLinks) = 1) := by
  constructor
  · exact (pairwise_sortByIndex (udevLinks ++ fileLinks)).sublist
      (dedupConsec_sublist _)
  · intro hmem huniq
    apply countOcc_dedupConsec_sorted r (sortByIndex (udevLinks ++ fileLinks))
      (pairwise_sortByIndex _)
    · intro s hs hidx
      exact huniq s (mem_sortByIndex.mp hs) hidx
    · exact mem_sortByIndex.mpr hmem

/-- Witness for C3's amended theorem: a record present identically in both
sources, with no other record of its sequence, appears exactly once. -/
theorem mergeLinks_sorted_and_dedup_witness :
    countOcc ⟨("net5").data, 5, ("AA:BB:CC:DD:EE:05").data⟩
      (mergeLinks [⟨("net5").data, 5, ("AA:BB:CC:DD:EE:05").data⟩]
        [⟨("net5").data, 5, ("AA:BB:CC:DD:EE:05").data⟩]) = 1 := by
  exact (mergeLinks_sorted_and_dedup
    [⟨("net5").data, 5, ("AA:BB:CC:DD:EE:05").data⟩]
    [⟨("net5").data, 5, ("AA:BB:CC:DD:EE:05").data⟩]
    ⟨("net5").data, 5, ("AA:BB:CC:DD:EE:05").data⟩).2 (by decide) (by decide)

/-! ## Claim C2: the `byHardwareAddress` map -/

/-- C2 (code bug): loading a record file containing
`MACAddress=aa:bb:cc:dd:ee:ff` / `Name=net1` while the event device's
address attribute is `11:22:33:44:55:66` produces a map entry whose key is
the RAW file string (not its normalized form `AA:BB:CC:DD:EE:FF`) and whose
stored record carries the EVENT DEVICE's normalized address (because line
290 of src/config.rs builds the value with `PrefixedLink::new`, which reads
`hwaddr_from_event_device`, instead of the file's own address); consequently
`for_hwaddr` with the normalized file address finds nothing. -/
theorem config_map_entry_from_event_device :
    NetSetupLinkConfig.load
      ⟨some (("net").data), false, [], true, some [],
        some [((("aa:bb:cc:dd:ee:ff").data), (("net1").data))],
        some (("11:22:33:44:55:66").data), true⟩ (("net").data) =
      some ⟨[((("aa:bb:cc:dd:ee:ff").data),
              ⟨("net1").data, 1, ("11:22:33:44:55:66").data⟩)],
            [⟨("net1").data, 1, ("AA:BB:CC:DD:EE:FF").data⟩], ("net").data⟩ ∧
    for_hwaddr
      ⟨[((("aa:bb:cc:dd:ee:ff").data),
          ⟨("net1").data, 1, ("11:22:33:44:55:66").data⟩)],
        [⟨("net1").data, 1, ("AA:BB:CC:DD:EE:FF").data⟩], ("net").data⟩
      (("AA:BB:CC:DD:EE:FF").data) = none := by
  exact ⟨by decide, by decide⟩

/-! ## Claim C7: the persistent record writer -/

theorem assocLookup_insert {α : Type} (k : List Char) (v : α) :
    ∀ m : List (List Char × α), assocLookup k (assocInsert k v m) = some v
  | [] => by simp [assocInsert, assocLookup]
  | (k2, v2) :: rest => by
    unfold assocInsert
    split
    · next h =>
      unfold assocLookup
      rw [if_pos rfl]
    · next h =>
      unfold assocLookup
      rw [if_neg h]
      exact assocLookup_insert k v rest

theorem assocLookup_insert_ne {α : Type} (k k2 : List Char) (v : α) (hne : k2 ≠ k) :
    ∀ m : List (List Char × α), assocLookup k2 (assocInsert k v m) = assocLookup k2 m
  | [] => by
    unfold assocInsert assocLookup
    rw [if_neg fun h => hne h.symm]
    rfl
  | (k3, v3) :: rest => by
    unfold assocInsert
    split
    · next h =>
      subst h
      unfold assocLookup
      rw [if_neg fun h => hne h.symm, if_neg fun h => hne h.symm]
    · next h =>
      unfold assocLookup
      split
      · rfl
      · exact assocLookup_insert_ne k k2 v hne rest

/-- C7 (confirmed): `write_link_file` persists, at the fixed directory
joined with the fixed filename prefix, the record's name and the `.link`
extension, exactly the two-section text
`[Match]\nMACAddress=<addr>\n\n[Link]\nName=<name>\n`, creating the
directory if absent and overwriting (never failing on) an existing file at
that exact path, while leaving every other path untouched. -/
theorem write_link_file_spec (fs : FileSystem) (l : PrefixedLink) :
    link_file_path l =
      ("/etc/systemd/network/71-net-ifnames-prefix-").data ++ l.name ++ (".link").data ∧
    link_file_content l =
      ("[Match]\nMACAddress=").data ++ l.hwaddr ++ ("\n\n[Link]\nName=").data ++
        l.name ++ ("\n").data ∧
    assocLookup (link_file_path l) (write_link_file fs l).files =
      some (link_file_content l) ∧
    (write_link_file fs l).dirs.contains netSetupLinkConfDir = true ∧
    ∀ q, q ≠ link_file_path l →
      assocLookup q (write_link_file fs l).files = assocLookup q fs.files := by
  refine ⟨?_, rfl, ?_, ?_, ?_⟩
  · unfold link_file_path netSetupLinkConfDir linkFilePfx
    simp only [← List.append_assoc]
    rw [show (("/etc/systemd/network/").data : List Char) ++
      ("71-net-ifnames-prefix-").data =
      ("/etc/systemd/network/71-net-ifnames-prefix-").data from by decide]
  · exact assocLookup_insert _ _ _
  · unfold write_link_file
    simp only
    split
    · next h => exact h
    · simp
  · intro q hq
    exact assocLookup_insert_ne _ _ _ hq _

/-- Witness for C7: writing `net1`'s record over a filesystem that already
holds a file at the canonical path overwrites it rather than failing, and
leaves an unrelated path untouched. -/
theorem write_link_file_spec_witness :
    assocLookup (link_file_path ⟨("net1").data, 1, ("AA:BB:CC:DD:EE:FF").data⟩)
      (write_link_file
        ⟨[], [(link_file_path ⟨("net1").data, 1, ("AA:BB:CC:DD:EE:FF").data⟩,
          ("stale").data)]⟩
        ⟨("net1").data, 1, ("AA:BB:CC:DD:EE:FF").data⟩).files =
      some (link_file_content ⟨("net1").data, 1, ("AA:BB:CC:DD:EE:FF").data⟩) ∧
    assocLookup (("/other").data)
      (write_link_file
        ⟨[], [(link_file_path ⟨("net1").data, 1, ("AA:BB:CC:DD:EE:FF").data⟩,
          ("stale").data)]⟩
        ⟨("net1").data, 1, ("AA:BB:CC:DD:EE:FF").data⟩).files =
      assocLookup (("/other").data)
        [(link_file_path ⟨("net1").data, 1, ("AA:BB:CC:DD:EE:FF").data⟩,
          ("stale").data)] := by
  have h := write_link_file_spec
    ⟨[], [(link_file_path ⟨("net1").data, 1, ("AA:BB:CC:DD:EE:FF").data⟩,
      ("stale").data)]⟩
    ⟨("net1").data, 1, ("AA:BB:CC:DD:EE:FF").data⟩
  exact ⟨h.2.2.1, h.2.2.2.2 (("/other").data) (by decide)⟩

/-! ## Claim C6: the lock discipline of `main` -/

/-- C6 (confirmed): on every control path of `main` — the pre-lock early
exits, every early-exit error path inside the critical section (load
failure, event-address failure, allocation failure, record-construction
failure, write failure), the already-configured path, and the success path
— the lock-event trace is either empty (lock never taken) or exactly
`[lock, unlock]`: the Named Lock is always released before exit. -/
theorem runMain_lock_released (env : MainEnv) :
    (runMain env).events = [] ∨
      (runMain env).events = [LockEvent.lock, LockEvent.unlock] := by
  unfold runMain
  repeat' split
  all_goals first | (left; rfl) | (right; rfl)

/-! ## Claim C9: the unanchored rename check -/

/-- C9 (confirmed): the check for "already has a prefixed name" is an
unanchored regex search, so any interface name merely *containing*
`<pfx><digits>` (e.g. `xnet0` with prefix `net`) makes `rename_needed`
false, and the program prints the existing name unchanged, takes no lock,
and writes no record. -/
theorem rename_skipped_for_containing_names (env : MainEnv) (pfx : List Char)
    (hpfx : env.pfxResult = some pfx) (hne : pfx.isEmpty = false)
    (hok : prefix_ok pfx = true) (hvirt : env.devpathVirtual = false)
    (hcontains : hasPfxDigits pfx env.ifname = true) :
    rename_needed env.ifname pfx = false ∧
    runMain env = ⟨[], [env.ifname], false, 0⟩ := by
  have hrn : rename_needed env.ifname pfx = false := by
    unfold rename_needed
    rw [hcontains]
    rfl
  refine ⟨hrn, ?_⟩
  unfold runMain
  rw [hpfx]
  simp only [hne, hok, hvirt, hrn, Bool.not_false, Bool.not_true, Bool.false_eq_true,
    if_false, if_true]

/-- Witness for C9 at the interface name `xnet0` with prefix `net`. -/
theorem rename_skipped_for_containing_names_witness :
    rename_needed (("xnet0").data) (("net").data) = false ∧
    runMain ⟨some (("net").data), false, ("xnet0").data, true, some [], some [],
        some (("11:22:33:44:55:66").data), true⟩ =
      ⟨[], [("xnet0").data], false, 0⟩ := by
  exact rename_skipped_for_containing_names
    ⟨some (("net").data), false, ("xnet0").data, true, some [], some [],
      some (("11:22:33:44:55:66").data), true⟩
    (("net").data) rfl (by decide) (by decide) rfl (by decide)

/-! ## Sanity checks mirroring the repository's unit tests -/

example : hwaddr_valid (("11:22:33:44:55:66").data) = true := by decide
example : hwaddr_valid (("11-22-33-44-55-66").data) = true := by decide
example : hwaddr_valid (("11-22-33-44-55-xx").data) = false := by decide
example : hwaddr_valid (("ffff-33-44-55-66").data) = false := by decide
example : hwaddr_valid (("11-22-33-44-55-66-77").data) = false := by decide
example : hwaddr_valid (("52:54:00:52:1f").data) = false := by decide
example : hwaddr_normalize (("52:54:00:52:1f:93").data) = some (("52:54:00:52:1F:93").data) := by decide
example : hwaddr_normalize (("52-54-00-52-1f-93").data) = some (("52:54:00:52:1F:93").data) := by decide
example : hwaddr_normalize (("0:1:3:56:78:9a:bc").data) = some (("0:1:3:56:78:9A:BC").data) := by decide
example : hwaddr_valid (("de:ad:be:ee:ff:xx").data) = false := by decide
example : parseU64 (("+123").data) = some 123 := by decide
example : parseU64 (("").data) = none := by decide
example : parseHexU8 (("+f").data) = some 15 := by decide
example : trimStartMatches (("net").data) (("netnet5").data) = ("5").data := by decide
example : trimStartMatches (("net").data) (("neta1").data) = ("a1").data := by decide
example : extractAlphaRun (("net0").data) = ("net").data := by decide
example : extractAlphaRun (("neta1").data) = ("neta").data := by decide
example : extractAlphaRun (("1net0").data) = ("net").data := by decide
example : extractAlphaRun (("123").data) = ("").data := by decide
example : PrefixedLink.new_with_hwaddr (("net0").data) (("ff:ff:ff:ff:ff:ff").data) =
    some ⟨("net0").data, 0, ("FF:FF:FF:FF:FF:FF").data⟩ := by decide
example : PrefixedLink.new_with_hwaddr (("").data) (("ff:ff:ff:ff:ff:ff").data) = none := by decide
example : PrefixedLink.new_with_hwaddr (("neeeeeeeeeeeeeeeeeeeeeeeeeet0").data)
    (("ff:ff:ff:ff:ff:ff").data) = none := by decide
example : PrefixedLink.new_with_hwaddr (("1net0").data) (("ff:ff:ff:ff:ff:ff").data) = none := by decide
example : PrefixedLink.new_with_hwaddr (("net0").data) (("de:ad:be:ee:ff:xx").data) = none := by decide
example : rename_needed (("eth0").data) (("net").data) = true := by decide
example : rename_needed (("net0").data) (("net").data) = false := by decide
example : rename_needed (("xnet0").data) (("net").data) = false := by decide
example : rename_needed (("").data) (("net").data) = true := by decide
example : prefix_ok (("net").data) = true := by decide
example : prefix_ok (("eth").data) = false := by decide
example : prefix_ok (("neeeeeeeeeeeeeeet").data) = false := by decide
example : next_link_name ⟨[], [], ("net").data⟩ = some (("net0").data) := by decide
example : next_link_name ⟨[], [⟨("net1").data, 1, []⟩, ⟨("net3").data, 3, []⟩], ("net").data⟩ =
    some (("net4").data) := by decide
example : next_link_name ⟨[], [⟨("neta1").data, 1, []⟩], ("net").data⟩ = none := by decide
example : mergeLinks [⟨("net1").data, 1, ("AA").data⟩]
    [⟨("net1").data, 1, ("AA").data⟩] = [⟨("net1").data, 1, ("AA").data⟩] := by decide
example : countOcc ⟨("net1").data, 1, ("AA").data⟩
    (mergeLinks [⟨("net1").data, 1, ("AA").data⟩, ⟨("net01").data, 1, ("BB").data⟩]
      [⟨("net1").data, 1, ("AA").data⟩]) = 2 := by decide
example :
    enumFilesAux (some (("11:22:33:44:55:66").data)) (("net").data)
      [((("aa:bb:cc:dd:ee:ff").data), (("net1").data))] [] [] =
    some ([((("aa:bb:cc:dd:ee:ff").data),
            ⟨("net1").data, 1, ("11:22:33:44:55:66").data⟩)],
          [⟨("net1").data, 1, ("AA:BB:CC:DD:EE:FF").data⟩]) := by decide
